import Mathlib

/-!
Shallow embedding of `rustc-edit-distance` (src/lib.rs) together with proofs
about its two components: the bounded restricted edit distance
(`edit_distance`, `edit_distance_with_substrings`) and the candidate matcher
(`find_best_match_for_name`, `find_best_match_for_name_impl`,
`find_match_by_sorted_words`).

Rust strings are modelled as Lean `String` (a structure holding a
`List Char`, i.e. a list of Unicode scalar values, matching `str::chars()`).
-/

namespace RustcED

/- ## DistanceEngine: `edit_distance` (src/lib.rs lines 18-96) -/

/-- `usize::MAX`, used by the source only as the initial content of the
`prev_prev` buffer.  The buffer is read solely under the guard `i > 1`, at
which point it has been overwritten by rotation, so the value is never
consumed; we keep the 64-bit value for fidelity. -/
def usizeMAX : Nat := 2 ^ 64 - 1

/-- Strip the longest common leading run from the two lists, in lock step
(the first `while let` loop of `edit_distance`). -/
def stripCommonPre : List Char → List Char → List Char × List Char
  | x :: xs, y :: ys => if x = y then stripCommonPre xs ys else (x :: xs, y :: ys)
  | xs, ys => (xs, ys)

/-- Strip the longest common trailing run from the two lists (the second
`while let` loop of `edit_distance`, which pops equal last characters;
popping from the back is stripping the front of the reversals). -/
def stripCommonSuf (a b : List Char) : List Char × List Char :=
  let p := stripCommonPre a.reverse b.reverse
  (p.1.reverse, p.2.reverse)

/-- `substitution_cost`: there is no cost to substitute a character with
itself (`a[a_idx] == b[b_idx]` in the source, compared via `get?` since both
indices are in range wherever the loop reads them). -/
def substitutionCost (a b : List Char) (ai bj : Nat) : Nat :=
  if a.get? ai = b.get? bj then 0 else 1

/-- The inner (column) loop of `edit_distance`: builds the `current` buffer
for outer index `i` from the buffers `prevPrev` (`prev_prev`) and `prev`.
`cellFun a b pp p i j` is `current[j]`; the value at `j+1` reads the freshly
written `current[j]` (insertion), exactly as the source does. -/
def cellFun (a b : List Char) (pp p : Nat → Nat) (i : Nat) : Nat → Nat
  | 0 => i
  | j + 1 =>
    let c :=
      min (p (j + 1) + 1)
        (min (cellFun a b pp p i j + 1) (p j + substitutionCost a b (i - 1) j))
    if 1 < i ∧ 0 < j ∧ a.get? (i - 1) = b.get? (j - 1) ∧ a.get? (i - 2) = b.get? j
    then min c (pp (j - 1) + 1)
    else c

/-- The outer (row) loop of `edit_distance` with its buffer rotation:
`rowFun a b i` is the buffer that holds row `i` once the `i`-th iteration has
finished (`prev` after rotation).  Row `0` is the initial
`(0..=b.len()).collect()`; at `i = 1` the `prev_prev` buffer still holds its
initial `usize::MAX` fill, and for `i ≥ 2` it holds row `i - 2`. -/
def rowFun (a b : List Char) : Nat → Nat → Nat
  | 0 => fun j => j
  | 1 => cellFun a b (fun _ => usizeMAX) (rowFun a b 0) 1
  | i + 2 => cellFun a b (rowFun a b i) (rowFun a b (i + 1)) (i + 2)

/-- `edit_distance` (src/lib.rs lines 18-96): length-bounded restricted edit
distance over scalar values; `none` when the distance exceeds `limit`. -/
def edit_distance (sa sb : String) (limit : Nat) : Option Nat :=
  let a0 := sa.data
  let b0 := sb.data
  -- Ensure that `b` is the shorter string.
  let ab := if a0.length < b0.length then (b0, a0) else (a0, b0)
  let min_dist := ab.1.length - ab.2.length
  -- If we know the limit will be exceeded, we can return early.
  if limit < min_dist then none
  else
    let ab1 := stripCommonPre ab.1 ab.2
    let ab2 := stripCommonSuf ab1.1 ab1.2
    -- If either string is empty, the distance is the length of the other.
    if ab2.2.isEmpty then some min_dist
    else
      let distance := rowFun ab2.1 ab2.2 ab2.1.length ab2.2.length
      if distance ≤ limit then some distance else none

/- ## DistanceEngine: `edit_distance_with_substrings` (lines 106-132) -/

/-- `edit_distance_with_substrings` (src/lib.rs lines 106-132). -/
def edit_distance_with_substrings (a b : String) (limit : Nat) : Option Nat :=
  let n := a.data.length
  let m := b.data.length
  -- Check one isn't less than half the length of the other.
  let big_len_diff := n * 2 < m ∨ m * 2 < n
  let len_diff := if n < m then m - n else n - m
  match edit_distance a b (limit + len_diff) with
  | none => none
  | some distance =>
    let score := distance - len_diff
    let score :=
      if score = 0 ∧ 0 < len_diff ∧ ¬big_len_diff then 1
      else if ¬big_len_diff then score + (len_diff + 1) / 2
      else score + len_diff
    if score ≤ limit then some score else none

/- ## NameMatcher (lines 98-104, 134-218) -/

/-- `str::to_uppercase`, modelled characterwise with `Char.toUpper` (exact
for the ASCII alphabet; every string the development evaluates it on is
ASCII). -/
def rustToUppercase (s : String) : String := ⟨s.data.map Char.toUpper⟩

/-- `str::contains(&str)`: substring containment over the scalar values. -/
def strContains (hay needle : String) : Bool := decide (needle.data <:+: hay.data)

/-- The tier-1 search of `find_best_match_for_name_impl` (lines 146-151):
first candidate whose uppercased form equals, contains, or is contained in
the uppercased lookup. -/
def tierOne (candidates : List String) (lookupUp : String) : Option String :=
  candidates.find? fun c =>
    rustToUppercase c == lookupUp
      || strContains (rustToUppercase c) lookupUp
      || strContains lookupUp (rustToUppercase c)

/-- Outcome of the candidate loop (lines 162-186): either the early
`return Some(*c)` on a score of zero, or the final `best` and
`next_candidates` state. -/
inductive LoopOut where
  | early (c : String)
  | done (best : Option String) (next : List String)
  deriving DecidableEq

/-- The candidate loop of `find_best_match_for_name_impl` (lines 162-186),
carrying the mutable state `dist`, `best` and `next_candidates`. -/
def matchLoop (useSub : Bool) (lookup : String) :
    List String → Nat → Option String → List String → LoopOut
  | [], _, best, next => .done best next
  | c :: cs, dist, best, next =>
    match (if useSub then edit_distance_with_substrings lookup c dist
           else edit_distance lookup c dist) with
    | some 0 => .early c
    | some (d + 1) =>
      if useSub then
        if d + 1 < dist then matchLoop useSub lookup cs (d + 1) (some c) [c]
        else matchLoop useSub lookup cs dist (some c) (next ++ [c])
      else
        matchLoop useSub lookup cs d (some c) next
    | none => matchLoop useSub lookup cs dist best next

/-- `str::split('_')`: the separator-delimited pieces, in order, empty
pieces included (`"".split('_')` yields one empty piece).  A piece (a word)
is kept as its scalar-value sequence. -/
def splitUnderscore : List Char → List (List Char)
  | [] => [[]]
  | c :: cs =>
    if c = '_' then [] :: splitUnderscore cs
    else
      match splitUnderscore cs with
      | [] => [[c]]
      | w :: ws => (c :: w) :: ws

/-- Lexicographic comparison of two scalar-value sequences.  `Ord` on
`&str` compares UTF-8 bytes, and UTF-8 byte order coincides with scalar
value order. -/
def charListLe : List Char → List Char → Bool
  | [], _ => true
  | _ :: _, [] => false
  | c :: cs, d :: ds => if c = d then charListLe cs ds else decide (c < d)

/-- The comparison of `sort_unstable` as a relation. -/
def wordLe (v w : List Char) : Prop := charListLe v w = true

instance : DecidableRel wordLe := fun v w => instDecidableEqBool (charListLe v w) true

/-- `sort_by_words` (lines 213-218): split on the `'_'` separator and sort
the words (which sort is used is irrelevant to the result of a sort, so
`sort_unstable` is modelled with `insertionSort`). -/
def sort_by_words (name : String) : List (List Char) :=
  List.insertionSort wordLe (splitUnderscore name.data)

/-- `find_match_by_sorted_words` (lines 202-211): a left fold that replaces
the accumulator by every candidate whose sorted word list matches. -/
def find_match_by_sorted_words (iter_names : List String) (lookup : String) :
    Option String :=
  let lookupSorted := sort_by_words lookup
  iter_names.foldl
    (fun result candidate =>
      if sort_by_words candidate = lookupSorted then some candidate else result)
    none

/-- `find_best_match_for_name_impl` (lines 134-200), with an explicit
recursion budget: the source recurses (line 193) whenever the tie-break pool
holds more than one candidate, always passing `use_substring_score = false`;
a budget of `2` covers every reachable call, and `implFuel_succ` below shows
the result is independent of any budget `≥ 1` once the mode is `false`
(the pool then provably stays empty). -/
def implFuel : Nat → Bool → List String → String → Option Nat → Option String
  | 0, _, _, _, _ => none
  | fuel + 1, useSub, candidates, lookup, dist? =>
    let lookupUp := rustToUppercase lookup
    match tierOne candidates lookupUp with
    | some c => some c
    | none =>
      let lookupLen := lookup.data.length
      let dist0 := dist?.getD (max lookupLen 3 / 3)
      match matchLoop useSub lookup candidates dist0 none [] with
      | .early c => some c
      | .done best next =>
        let best :=
          if 1 < next.length
          then implFuel fuel false next lookup (some lookup.utf8ByteSize)
          else best
        match best with
        | some b => some b
        | none => find_match_by_sorted_words candidates lookup

/-- `find_best_match_for_name_impl` (lines 134-200). -/
def find_best_match_for_name_impl
    (useSub : Bool) (candidates : List String) (lookup : String)
    (dist? : Option Nat) : Option String :=
  implFuel 2 useSub candidates lookup dist?

/-- `find_best_match_for_name` (lines 98-104). -/
def find_best_match_for_name
    (candidates : List String) (lookup : String) (dist? : Option Nat) :
    Option String :=
  find_best_match_for_name_impl false candidates lookup dist?

/- ## The restricted edit distance as a textbook recurrence

The spec describes the algorithm (section 4.1, step 5) as the classical
restricted-edit-distance ("optimal string alignment") recurrence: cell
`(i, j)` is the distance between the first `i` scalar values of `a` and the
first `j` of `b`; a transposition is allowed only against the two-back
diagonal.  `osaAux` is that recurrence, written directly; the development
proves that `edit_distance` computes it. -/

/-- Cell `(i+1, j+1)` compares `a[i]` with `b[j]`. -/
def osaAux (a b : List Char) : Nat → Nat → Nat
  | 0, j => j
  | i + 1, 0 => i + 1
  | 1, j + 1 =>
    min (osaAux a b 0 (j + 1) + 1)
      (min (osaAux a b 1 j + 1) (osaAux a b 0 j + substitutionCost a b 0 j))
  | i + 2, 1 =>
    min (osaAux a b (i + 1) 1 + 1)
      (min (osaAux a b (i + 2) 0 + 1)
        (osaAux a b (i + 1) 0 + substitutionCost a b (i + 1) 0))
  | i + 2, j + 2 =>
    let base :=
      min (osaAux a b (i + 1) (j + 2) + 1)
        (min (osaAux a b (i + 2) (j + 1) + 1)
          (osaAux a b (i + 1) (j + 1) + substitutionCost a b (i + 1) (j + 1)))
    if a.get? (i + 1) = b.get? j ∧ a.get? i = b.get? (j + 1)
    then min base (osaAux a b i j + 1)
    else base

/-- The restricted (optimal string alignment) edit distance between two
scalar-value sequences. -/
def osa (a b : List Char) : Nat := osaAux a b a.length b.length

/- ## Single edit operations

Claim C4 glosses "true distance" as the minimum-cost transformation by
single-character insertions, deletions, substitutions and adjacent
transpositions, cost 1 each.  `oneEdit` is one such operation; `reachIn n`
is an `n`-operation transformation. -/

/-- Insert one character somewhere in `a` (so removing one position of `b`
gives back `a`). -/
def insOne (a b : List Char) : Prop :=
  b.length = a.length + 1 ∧ ∃ i < b.length, b.eraseIdx i = a

/-- Replace the character at one position (exactly one position differs). -/
def substOne (a b : List Char) : Prop :=
  a.length = b.length ∧ ((a.zip b).filter fun p => p.1 != p.2).length = 1

/-- Swap the adjacent characters at positions `i` and `i+1`. -/
def swapAt (a : List Char) (i : Nat) : List Char :=
  a.take i ++ [a.getD (i + 1) default, a.getD i default] ++ a.drop (i + 2)

/-- Transpose one adjacent pair. -/
def transOne (a b : List Char) : Prop :=
  ∃ i, i + 1 < a.length ∧ b = swapAt a i

/-- One cost-1 edit operation, as claim C4 enumerates them. -/
def oneEdit (a b : List Char) : Prop :=
  insOne a b ∨ insOne b a ∨ substOne a b ∨ transOne a b

instance decInsOne (a b : List Char) : Decidable (insOne a b) := by
  unfold insOne; infer_instance

instance decSubstOne (a b : List Char) : Decidable (substOne a b) := by
  unfold substOne; infer_instance

instance decTransOne (a b : List Char) : Decidable (transOne a b) := by
  unfold transOne
  exact decidable_of_iff (∃ i < a.length, i + 1 < a.length ∧ b = swapAt a i)
    ⟨fun ⟨i, _, h⟩ => ⟨i, h⟩, fun ⟨i, h⟩ => ⟨i, by omega, h⟩⟩

instance decOneEdit (a b : List Char) : Decidable (oneEdit a b) := by
  unfold oneEdit; infer_instance

/-- `a` can be turned into `b` by exactly `n` edit operations. -/
def reachIn : Nat → List Char → List Char → Prop
  | 0, a, b => a = b
  | n + 1, a, b => ∃ c, oneEdit a c ∧ reachIn n c b

/-- Modelled from the spec: the procedure that claim C6 ascribes to
`substringAwareScore`, transcribed clause by clause — `lenDiff` is the
absolute length difference, "drastically different" means one count is less
than half the other, the length penalty is `ceil(lenDiff/2)`, and the result
is absent exactly when the final score exceeds the limit. -/
def substringAwareScoreSpec (a b : String) (limit : Nat) : Option Nat :=
  let n := a.data.length
  let m := b.data.length
  let lenDiff := max n m - min n m
  let drastic := 2 * n < m ∨ 2 * m < n
  match edit_distance a b (limit + lenDiff) with
  | none => none
  | some distance =>
    let score := distance - lenDiff
    let finalScore :=
      if score = 0 ∧ 0 < lenDiff ∧ ¬drastic then 1
      else if ¬drastic then score + (lenDiff / 2 + lenDiff % 2)
      else score + lenDiff
    if limit < finalScore then none else some finalScore

/- ## Claim theorems: literal scenarios and counterexamples -/

/-- Claim C8: the literal bounded-distance scenarios, each at an unbounding
limit (the length of the longer string, which the distance never exceeds):
kitten/sitting is 3, Tier/Tor is 2, the empty string to kitten is 6, and two
empty strings are at distance 0. -/
theorem literal_distance_scenarios :
    edit_distance "kitten" "sitting" 7 = some 3 ∧
    edit_distance "Tier" "Tor" 4 = some 2 ∧
    edit_distance "" "kitten" 6 = some 6 ∧
    edit_distance "" "" 0 = some 0 := by
  decide

/-- Claim C2: the triangle inequality FAILS for the distance the code
computes.  At `a = "ca"`, `b = "abc"`, `c = "ac"` (limits large enough that
no call is truncated) the code yields `d(a,b) = 3` but
`d(a,c) + d(b,c) = 1 + 1 = 2`.  The repository's own quickcheck property
`triangle_inequality_property` asserts the opposite, so this is a violation
of the code's own test suite. -/
theorem triangle_inequality_violation :
    edit_distance "ca" "abc" 3 = some 3 ∧
    edit_distance "ca" "ac" 3 = some 1 ∧
    edit_distance "abc" "ac" 3 = some 1 ∧
    ¬ (3 ≤ 1 + 1) := by
  decide

/-- Claim C1, counterexample: on candidates `["force_capture", "capture"]`
with lookup `"forced_capture"` and the default budget, the public matcher
does NOT return `"force_capture"`. -/
theorem force_capture_claim_false :
    find_best_match_for_name ["force_capture", "capture"] "forced_capture" none
      ≠ some "force_capture" := by
  decide

/-- Claim C1, amended: the call returns `"capture"`: the case-insensitive
substring tier fires first, because `"CAPTURE"` is contained in
`"FORCED_CAPTURE"`, and that tier returns the first candidate whose
uppercase form matches — distance ranking and the whole-word tie-break
(which only the substring-scoring mode reaches) are never consulted. -/
theorem force_capture_returns_capture :
    find_best_match_for_name ["force_capture", "capture"] "forced_capture" none
      = some "capture" := by
  decide

/-- Claim C3, counterexample: a run that reaches the sorted-word fallback
(tier 1 finds nothing and the distance loop ends with no best and an empty
pool) where BOTH candidates' word multisets equal the lookup's; the result
is the last such candidate `"c_b_a"`, not the first `"b_c_a"`. -/
theorem sorted_word_first_claim_false :
    tierOne ["b_c_a", "c_b_a"] (rustToUppercase "a_b_c") = none ∧
    matchLoop false "a_b_c" ["b_c_a", "c_b_a"] 1 none [] = .done none [] ∧
    sort_by_words "b_c_a" = sort_by_words "a_b_c" ∧
    sort_by_words "c_b_a" = sort_by_words "a_b_c" ∧
    find_best_match_for_name ["b_c_a", "c_b_a"] "a_b_c" none = some "c_b_a" ∧
    find_best_match_for_name ["b_c_a", "c_b_a"] "a_b_c" none ≠ some "b_c_a" := by
  decide

/-- The source's final bound check `(score <= limit).then_some(score)` and
the spec's "absence exactly when the final score exceeds the limit" are the
same function. -/
theorem then_some_eq_check (s limit : Nat) :
    (if s ≤ limit then some s else none) = (if limit < s then none else some s) := by
  rcases le_or_lt s limit with h | h
  · rw [if_pos h, if_neg (by omega)]
  · rw [if_neg (by omega), if_pos h]

/-- The source's score adjustment and the spec's wording of it agree, for
any two equivalent phrasings of "big length difference". -/
theorem score_adjust_eq (s L : Nat) (big dr : Prop) [Decidable big] [Decidable dr]
    (h : big ↔ dr) :
    (if s = 0 ∧ 0 < L ∧ ¬big then 1 else if ¬big then s + (L + 1) / 2 else s + L) =
      (if s = 0 ∧ 0 < L ∧ ¬dr then 1 else if ¬dr then s + (L / 2 + L % 2) else s + L) := by
  have hc : (L + 1) / 2 = L / 2 + L % 2 := by omega
  simp only [h, hc]

/-- Claim C6: `edit_distance_with_substrings` computes exactly the procedure
the spec describes (see `substringAwareScoreSpec`): the bounded distance at
`limit + lenDiff` with absence propagated, minus the length difference, then
the substring correction (0 forced to 1 for comparable lengths), the halved
or full length penalty, and absence exactly when the final score exceeds the
limit. -/
theorem substring_score_matches_spec (a b : String) (limit : Nat) :
    edit_distance_with_substrings a b limit = substringAwareScoreSpec a b limit := by
  have hld :
      (if a.data.length < b.data.length then b.data.length - a.data.length
       else a.data.length - b.data.length) =
        max a.data.length b.data.length - min a.data.length b.data.length := by
    split <;> omega
  simp only [edit_distance_with_substrings, substringAwareScoreSpec, hld]
  cases hE : edit_distance a b
      (limit + (max a.data.length b.data.length - min a.data.length b.data.length)) with
  | none => rfl
  | some distance =>
    dsimp only
    set n := a.data.length with hn
    set m := b.data.length with hm
    rw [score_adjust_eq (distance - (max n m - min n m)) (max n m - min n m)
      (n * 2 < m ∨ m * 2 < n) (2 * n < m ∨ 2 * m < n) (by omega), then_some_eq_check]

/- ## NameMatcher loop invariants -/

/-- In plain-distance mode the candidate loop never touches
`next_candidates`: whatever pool it finishes with is the pool it started
with. -/
theorem matchLoop_false_next (lookup : String) :
    ∀ (cs : List String) (dist : Nat) (best b' : Option String)
      (next n' : List String),
      matchLoop false lookup cs dist best next = .done b' n' → n' = next := by
  intro cs
  induction cs with
  | nil =>
    intro dist best b' next n' h
    simp only [matchLoop] at h
    cases h
    rfl
  | cons c cs ih =>
    intro dist best b' next n' h
    simp only [matchLoop, Bool.false_eq_true, if_false] at h
    cases hE : edit_distance lookup c dist with
    | none =>
      rw [hE] at h
      exact ih _ _ _ _ _ h
    | some d =>
      cases d with
      | zero => rw [hE] at h; cases h
      | succ d => rw [hE] at h; exact ih _ _ _ _ _ h

/-- Once the mode is plain distance, the result does not depend on the
recursion budget (any budget of at least one step): the tie-break branch is
dead because the pool stays empty. -/
theorem implFuel_false_succ (fuel : Nat) (cs : List String) (lookup : String)
    (d : Option Nat) :
    implFuel (fuel + 1) false cs lookup d = implFuel 1 false cs lookup d := by
  simp only [implFuel]
  cases h1 : tierOne cs (rustToUppercase lookup) with
  | some c => rfl
  | none =>
    cases h2 : matchLoop false lookup cs ((d.getD (max lookup.data.length 3 / 3)))
        none [] with
    | early c => rfl
    | done best next =>
      have hnext : next = [] := matchLoop_false_next lookup cs _ none best [] next h2
      subst hnext
      rfl

/-- Claim C5: the public matcher is the internal matcher with substring
scoring disabled (first conjunct, definitional); in that mode the tie-break
pool always comes back empty (second conjunct), so the tie-break tier is
unreachable — the computation is already complete with a recursion budget of
one, i.e. with the recursive call disabled (third conjunct). -/
theorem public_matcher_is_plain_mode (cs : List String) (lookup : String)
    (d : Option Nat) :
    find_best_match_for_name cs lookup d
        = find_best_match_for_name_impl false cs lookup d ∧
      (∀ (dist : Nat) (best b' : Option String) (n' : List String),
        matchLoop false lookup cs dist best [] = .done b' n' → n' = []) ∧
      (∀ fuel : Nat, implFuel (fuel + 1) false cs lookup d
        = implFuel 1 false cs lookup d) := by
  refine ⟨rfl, ?_, ?_⟩
  · intro dist best b' n' h
    exact matchLoop_false_next lookup cs dist best b' [] n' h
  · intro fuel
    exact implFuel_false_succ fuel cs lookup d

/-- Witness for C5: a concrete plain-mode run whose loop terminates with
`done`, on which the pool-emptiness conjunct applies. -/
theorem public_matcher_is_plain_mode_witness :
    (matchLoop false "y" ["x"] 1 none [] = .done (some "x") []) ∧
      ([] : List String) = [] :=
  ⟨by decide,
    (public_matcher_is_plain_mode ["x"] "y" none).2.1 1 none (some "x") []
      (by decide)⟩

/-- Claim C9: the integrity assertion guarding the tie-break tier is valid:
for every input to the internal matcher, if the loop finishes with a pool
holding more than one candidate then substring-scoring mode is enabled
(equivalently, with the mode disabled the pool stays empty, see
`public_matcher_is_plain_mode`). -/
theorem tie_break_pool_needs_substring_mode (useSub : Bool) (lookup : String)
    (cs : List String) (dist : Nat) (best b' : Option String)
    (n' : List String)
    (hdone : matchLoop useSub lookup cs dist best [] = .done b' n')
    (hlen : 1 < n'.length) : useSub = true := by
  cases useSub with
  | true => rfl
  | false =>
    have h := matchLoop_false_next lookup cs dist best b' [] n' hdone
    subst h
    simp at hlen

/-- Witness for C9: the substring-mode run on the `force_capture` example
really does finish with a two-candidate pool, and the theorem applies to
it. -/
theorem tie_break_pool_needs_substring_mode_witness :
    (matchLoop true "forced_capture" ["force_capture", "capture"] 4 none []
        = .done (some "capture") ["force_capture", "capture"]) ∧
      1 < (["force_capture", "capture"] : List String).length ∧
      true = true :=
  ⟨by decide, by decide,
    tie_break_pool_needs_substring_mode true "forced_capture"
      ["force_capture", "capture"] 4 none (some "capture")
      ["force_capture", "capture"] (by decide) (by decide)⟩

/-- Claim C10: with the empty string as lookup, the matcher returns the head
of any non-empty candidate list, whatever the distance budget: the empty
uppercased lookup is contained in every candidate's uppercased form, so the
tier-1 search succeeds on the very first candidate. -/
theorem empty_lookup_returns_head (c : String) (cs : List String)
    (d : Option Nat) :
    find_best_match_for_name (c :: cs) "" d = some c ∧
      (∀ s : String, strContains (rustToUppercase s) (rustToUppercase "") = true) := by
  have hcontains : ∀ s : String,
      strContains (rustToUppercase s) (rustToUppercase "") = true := by
    intro s
    have : (rustToUppercase "").data <:+: (rustToUppercase s).data :=
      ⟨[], (rustToUppercase s).data, by simp [rustToUppercase]⟩
    simpa [strContains] using this
  refine ⟨?_, hcontains⟩
  have hpred :
      (rustToUppercase c == rustToUppercase ""
          || strContains (rustToUppercase c) (rustToUppercase "")
          || strContains (rustToUppercase "") (rustToUppercase c)) = true := by
    rw [hcontains c]
    simp
  have htier : tierOne (c :: cs) (rustToUppercase "") = some c := by
    unfold tierOne
    exact List.find?_cons_of_pos _ hpred
  simp only [find_best_match_for_name, find_best_match_for_name_impl, implFuel,
    htier]

/- ## The sorted-word fallback tier -/

theorem charListLe_total : ∀ v w : List Char,
    charListLe v w = true ∨ charListLe w v = true := by
  intro v
  induction v with
  | nil => intro w; left; rfl
  | cons c cs ih =>
    intro w
    cases w with
    | nil => right; rfl
    | cons d ds =>
      by_cases hcd : c = d
      · subst hcd
        simp only [charListLe, if_pos rfl]
        exact ih ds
      · rcases lt_or_gt_of_ne hcd with h | h
        · left
          simp [charListLe, hcd, h]
        · right
          simp only [charListLe, if_neg (Ne.symm hcd)]
          simpa using h

theorem charListLe_trans : ∀ u v w : List Char,
    charListLe u v = true → charListLe v w = true → charListLe u w = true := by
  intro u
  induction u with
  | nil => intro v w _ _; rfl
  | cons c cs ih =>
    intro v w h1 h2
    cases v with
    | nil => simp [charListLe] at h1
    | cons d ds =>
      cases w with
      | nil => simp [charListLe] at h2
      | cons e es =>
        simp only [charListLe] at h1 h2 ⊢
        by_cases hcd : c = d
        · subst hcd
          rw [if_pos rfl] at h1
          by_cases hde : c = e
          · subst hde
            rw [if_pos rfl] at h2 ⊢
            exact ih ds es h1 h2
          · rw [if_neg hde] at h2 ⊢
            exact h2
        · rw [if_neg hcd] at h1
          have hlt1 : c < d := by simpa using h1
          by_cases hde : d = e
          · subst hde
            rw [if_neg hcd]
            simpa using hlt1
          · rw [if_neg hde] at h2
            have hlt2 : d < e := by simpa using h2
            have hce : c < e := lt_trans hlt1 hlt2
            rw [if_neg (ne_of_lt hce)]
            simpa using hce

theorem charListLe_antisymm : ∀ v w : List Char,
    charListLe v w = true → charListLe w v = true → v = w := by
  intro v
  induction v with
  | nil =>
    intro w _ h2
    cases w with
    | nil => rfl
    | cons d ds => simp [charListLe] at h2
  | cons c cs ih =>
    intro w h1 h2
    cases w with
    | nil => simp [charListLe] at h1
    | cons d ds =>
      simp only [charListLe] at h1 h2
      by_cases hcd : c = d
      · subst hcd
        rw [if_pos rfl] at h1 h2
        rw [ih ds h1 h2]
      · rw [if_neg hcd] at h1
        rw [if_neg (Ne.symm hcd)] at h2
        have hx : c < d := by simpa using h1
        have hy : d < c := by simpa using h2
        exact absurd hy (lt_asymm hx)

instance : IsTotal (List Char) wordLe := ⟨charListLe_total⟩

instance : IsTrans (List Char) wordLe :=
  ⟨fun u v w h1 h2 => charListLe_trans u v w h1 h2⟩

instance : IsAntisymm (List Char) wordLe :=
  ⟨fun v w h1 h2 => charListLe_antisymm v w h1 h2⟩

/-- Two names have the same `sort_by_words` image exactly when their word
lists are permutations of each other, i.e. when their word multisets
agree. -/
theorem sort_by_words_eq_iff (c lookup : String) :
    sort_by_words c = sort_by_words lookup ↔
      List.Perm (splitUnderscore c.data) (splitUnderscore lookup.data) := by
  constructor
  · intro h
    have h1 := (List.perm_insertionSort wordLe (splitUnderscore c.data)).symm
    have h2 := List.perm_insertionSort wordLe (splitUnderscore lookup.data)
    unfold sort_by_words at h
    rw [h] at h1
    exact h1.trans h2
  · intro h
    refine List.eq_of_perm_of_sorted ?_ (List.sorted_insertionSort wordLe _)
      (List.sorted_insertionSort wordLe _)
    exact (List.perm_insertionSort wordLe _).trans
      (h.trans (List.perm_insertionSort wordLe _).symm)

/-- A left fold that replaces its accumulator at every hit computes the
LAST hit (the first hit of the reversal), keeping its seed if there is
none. -/
theorem foldl_last_choice {α : Type} (q : α → Prop) [DecidablePred q] :
    ∀ (cs : List α) (init : Option α),
      cs.foldl (fun r c => if q c then some c else r) init =
        ((cs.reverse.find? fun c => decide (q c)).or init) := by
  intro cs
  induction cs with
  | nil => intro init; rfl
  | cons c cs ih =>
    intro init
    simp only [List.foldl_cons, List.reverse_cons]
    rw [ih, List.find?_append]
    cases h : cs.reverse.find? (fun c => decide (q c)) with
    | some d => rfl
    | none =>
      by_cases hq : q c
      · simp [List.find?, hq, Option.or]
      · simp [List.find?, hq, Option.or]

/-- Claim C3, amended: the sorted-word fallback returns the LAST candidate
(in list order, i.e. the first of the reversal) whose multiset of
`'_'`-separated words equals the lookup's, and absence when no candidate's
word multiset matches. -/
theorem fallback_returns_last_multiset_match (cs : List String) (lookup : String) :
    find_match_by_sorted_words cs lookup =
      cs.reverse.find?
        fun c => decide (List.Perm (splitUnderscore c.data) (splitUnderscore lookup.data)) := by
  unfold find_match_by_sorted_words
  rw [foldl_last_choice (fun c => sort_by_words c = sort_by_words lookup) cs none]
  have hfun : (fun c => decide (sort_by_words c = sort_by_words lookup)) =
      (fun c : String =>
        decide (List.Perm (splitUnderscore c.data) (splitUnderscore lookup.data))) :=
    funext fun c => decide_eq_decide.mpr (sort_by_words_eq_iff c lookup)
  rw [hfun]
  cases cs.reverse.find?
      (fun c : String =>
        decide (List.Perm (splitUnderscore c.data) (splitUnderscore lookup.data))) with
  | none => rfl
  | some d => rfl

/- ## Claim C4, counterexample -/

/-- Claim C4, counterexample: the claim's gloss of "true distance" — the
minimum-cost transformation by insert/delete/substitute/adjacent-transpose,
cost 1 each — gives distance 2 from `"ca"` to `"abc"` (transpose to `"ac"`,
then insert `'b'`; no shorter script exists), yet with `limit = 2` (which is
`≥` that distance) the code returns absence rather than `some 2`.  The code
implements the RESTRICTED distance, for which an edited pair cannot be
edited again, and that distance is 3 here. -/
theorem limit_monotonicity_claim_false :
    reachIn 2 "ca".data "abc".data ∧
      (∀ k, k < 2 → ¬ reachIn k "ca".data "abc".data) ∧
      edit_distance "ca" "abc" 2 = none := by
  refine ⟨⟨"ac".data, by decide, ⟨"abc".data, by decide, rfl⟩⟩, ?_, by decide⟩
  intro k hk
  match k with
  | 0 =>
    intro h
    have h' : "ca".data = "abc".data := h
    exact absurd h' (by decide)
  | 1 =>
    rintro ⟨c, hc, h0⟩
    have hcb : c = "abc".data := h0
    subst hcb
    exact absurd hc (by decide)

/- ## The bounded distance computes the restricted recurrence

The remainder of the development proves
`edit_distance a b limit = if osa a.data b.data ≤ limit then some (osa ..)
else none`: the swap, the early length exit, prefix/suffix stripping, and
the rolling three-buffer loop all preserve the textbook restricted
recurrence `osaAux`. -/

theorem osaAux_zero_left (a b : List Char) (j : Nat) : osaAux a b 0 j = j := by
  simp [osaAux]

theorem osaAux_zero_right (a b : List Char) (i : Nat) : osaAux a b i 0 = i := by
  cases i with
  | zero => simp [osaAux]
  | succ i => simp [osaAux]

/-- The three always-available candidates of cell `(i+1, j+1)`: deletion,
insertion, substitution. -/
def osaBase (a b : List Char) (i j : Nat) : Nat :=
  min (osaAux a b i (j + 1) + 1)
    (min (osaAux a b (i + 1) j + 1) (osaAux a b i j + substitutionCost a b i j))

/-- The recurrence, in a single uniform step: cell `(i+1, j+1)` is the
minimum of the three base candidates, together with the transposition
candidate exactly when both indices allow a two-back diagonal and the
characters are an adjacent swap. -/
theorem osaAux_succ_succ (a b : List Char) (i j : Nat) :
    osaAux a b (i + 1) (j + 1) =
      if 1 ≤ i ∧ 1 ≤ j ∧ a.get? i = b.get? (j - 1) ∧ a.get? (i - 1) = b.get? j
      then min (osaBase a b i j) (osaAux a b (i - 1) (j - 1) + 1)
      else osaBase a b i j := by
  match i, j with
  | 0, j =>
    rw [if_neg (by omega)]
    simp [osaAux, osaBase]
  | i + 1, 0 =>
    rw [if_neg (by omega)]
    simp [osaAux, osaBase]
  | i + 1, j + 1 =>
    have hsub2 : i + 1 + 1 - 2 = i := by omega
    by_cases h : a.get? (i + 1) = b.get? j ∧ a.get? i = b.get? (j + 1)
    · rw [if_pos ⟨by omega, by omega, by simpa using h.1, by simpa using h.2⟩]
      simp only [osaAux, osaBase, Nat.succ_sub_one]
      rw [if_pos h]
    · rw [if_neg (show ¬ (1 ≤ i + 1 ∧ 1 ≤ j + 1 ∧ a.get? (i + 1) = b.get? (j + 1 - 1)
          ∧ a.get? (i + 1 - 1) = b.get? (j + 1)) by
        simp only [Nat.add_sub_cancel]
        intro hc
        exact h ⟨hc.2.2.1, hc.2.2.2⟩)]
      simp only [osaAux, osaBase, Nat.succ_sub_one]
      rw [if_neg h]

theorem substitutionCost_le_one (a b : List Char) (i j : Nat) :
    substitutionCost a b i j ≤ 1 := by
  unfold substitutionCost
  split <;> omega

theorem substitutionCost_eq_zero (a b : List Char) (i j : Nat)
    (h : a.get? i = b.get? j) : substitutionCost a b i j = 0 := by
  unfold substitutionCost
  rw [if_pos h]

/-- Moving one row down never raises a cell by more than one. -/
theorem osaAux_le_up (a b : List Char) (i j : Nat) :
    osaAux a b (i + 1) j ≤ osaAux a b i j + 1 := by
  cases j with
  | zero => rw [osaAux_zero_right, osaAux_zero_right]
  | succ j =>
    rw [osaAux_succ_succ]
    have h1 : osaBase a b i j ≤ osaAux a b i (j + 1) + 1 := min_le_left _ _
    split
    · exact le_trans (min_le_left _ _) h1
    · exact h1

/-- Moving one column right never raises a cell by more than one. -/
theorem osaAux_le_left (a b : List Char) (i j : Nat) :
    osaAux a b i (j + 1) ≤ osaAux a b i j + 1 := by
  cases i with
  | zero => rw [osaAux_zero_left, osaAux_zero_left]
  | succ i =>
    rw [osaAux_succ_succ]
    have h1 : osaBase a b i (j + 1 - 1) ≤ osaAux a b (i + 1) j + 1 := by
      simp only [Nat.add_sub_cancel]
      exact le_trans (min_le_right _ _) (min_le_left _ _)
    simp only [Nat.add_sub_cancel] at h1 ⊢
    split
    · exact le_trans (min_le_left _ _) h1
    · exact h1

/-- The diagonal candidate bounds the cell. -/
theorem osaAux_le_diag (a b : List Char) (i j : Nat) :
    osaAux a b (i + 1) (j + 1) ≤ osaAux a b i j + substitutionCost a b i j := by
  rw [osaAux_succ_succ]
  have h1 : osaBase a b i j ≤ osaAux a b i j + substitutionCost a b i j :=
    le_trans (min_le_right _ _) (min_le_right _ _)
  split
  · exact le_trans (min_le_left _ _) h1
  · exact h1

theorem osaAux_le_diag_one (a b : List Char) (i j : Nat) :
    osaAux a b (i + 1) (j + 1) ≤ osaAux a b i j + 1 :=
  le_trans (osaAux_le_diag a b i j)
    (Nat.add_le_add_left (substitutionCost_le_one a b i j) _)

/-- Removing the last column never lowers a cell by more than one. -/
theorem osaAux_ge_left (a b : List Char) :
    ∀ i j, osaAux a b i j ≤ osaAux a b i (j + 1) + 1 := by
  intro i
  induction i with
  | zero =>
    intro j
    rw [osaAux_zero_left, osaAux_zero_left]
    omega
  | succ i ih =>
    intro j
    rw [osaAux_succ_succ]
    have hup := osaAux_le_up a b i j
    have hih := ih j
    have hihj := ih (j + 1)
    by_cases hc : 1 ≤ i ∧ 1 ≤ j ∧ a.get? i = b.get? (j - 1) ∧ a.get? (i - 1) = b.get? j
    · rw [if_pos hc]
      obtain ⟨hi1, hj1, _, _⟩ := hc
      have hd : osaAux a b (i + 1) j ≤ osaAux a b i (j - 1) + 1 := by
        have h := osaAux_le_diag_one a b i (j - 1)
        have hj : j - 1 + 1 = j := by omega
        rwa [hj] at h
      have hu : osaAux a b i (j - 1) ≤ osaAux a b (i - 1) (j - 1) + 1 := by
        have h := osaAux_le_up a b (i - 1) (j - 1)
        have hi : i - 1 + 1 = i := by omega
        rwa [hi] at h
      simp only [osaBase]
      omega
    · rw [if_neg hc]
      simp only [osaBase]
      omega

/-- Removing the last row never lowers a cell by more than one. -/
theorem osaAux_ge_up (a b : List Char) :
    ∀ j i, osaAux a b i j ≤ osaAux a b (i + 1) j + 1 := by
  intro j
  induction j with
  | zero =>
    intro i
    rw [osaAux_zero_right, osaAux_zero_right]
    omega
  | succ j ih =>
    intro i
    rw [osaAux_succ_succ]
    have hleft := osaAux_le_left a b i j
    have hih := ih i
    by_cases hc : 1 ≤ i ∧ 1 ≤ j ∧ a.get? i = b.get? (j - 1) ∧ a.get? (i - 1) = b.get? j
    · rw [if_pos hc]
      obtain ⟨hi1, hj1, _, _⟩ := hc
      have hd : osaAux a b i (j + 1) ≤ osaAux a b (i - 1) j + 1 := by
        have h := osaAux_le_diag_one a b (i - 1) j
        have hi : i - 1 + 1 = i := by omega
        rwa [hi] at h
      have hu : osaAux a b (i - 1) j ≤ osaAux a b (i - 1) (j - 1) + 1 := by
        have h := osaAux_le_left a b (i - 1) (j - 1)
        have hj : j - 1 + 1 = j := by omega
        rwa [hj] at h
      simp only [osaBase]
      omega
    · rw [if_neg hc]
      simp only [osaBase]
      omega

/-- Every cell dominates the difference of its indices (the distance is at
least the length difference). -/
theorem osaAux_lower (a b : List Char) : ∀ n i j, i + j ≤ n →
    i - j ≤ osaAux a b i j ∧ j - i ≤ osaAux a b i j := by
  intro n
  induction n with
  | zero =>
    intro i j hij
    have hi : i = 0 := by omega
    have hj : j = 0 := by omega
    subst hi; subst hj
    rw [osaAux_zero_left]
    omega
  | succ n ih =>
    intro i j hij
    cases i with
    | zero =>
      rw [osaAux_zero_left]
      omega
    | succ i =>
      cases j with
      | zero =>
        rw [osaAux_zero_right]
        omega
      | succ j =>
        rw [osaAux_succ_succ]
        have h1 := ih i (j + 1) (by omega)
        have h2 := ih (i + 1) j (by omega)
        have h3 := ih i j (by omega)
        by_cases hc : 1 ≤ i ∧ 1 ≤ j ∧ a.get? i = b.get? (j - 1) ∧ a.get? (i - 1) = b.get? j
        · rw [if_pos hc]
          have h4 := ih (i - 1) (j - 1) (by omega)
          obtain ⟨hi1, hj1, _, _⟩ := hc
          simp only [osaBase]
          omega
        · rw [if_neg hc]
          simp only [osaBase]
          omega

/-- The recurrence is symmetric in its two sequences. -/
theorem osaAux_comm (a b : List Char) : ∀ n i j, i + j ≤ n →
    osaAux a b i j = osaAux b a j i := by
  intro n
  induction n with
  | zero =>
    intro i j hij
    have hi : i = 0 := by omega
    have hj : j = 0 := by omega
    subst hi; subst hj
    rw [osaAux_zero_left, osaAux_zero_left]
  | succ n ih =>
    intro i j hij
    cases i with
    | zero => rw [osaAux_zero_left, osaAux_zero_right]
    | succ i =>
      cases j with
      | zero => rw [osaAux_zero_right, osaAux_zero_left]
      | succ j =>
        rw [osaAux_succ_succ, osaAux_succ_succ]
        have e1 : osaAux a b i (j + 1) = osaAux b a (j + 1) i := ih i (j + 1) (by omega)
        have e2 : osaAux a b (i + 1) j = osaAux b a j (i + 1) := ih (i + 1) j (by omega)
        have e3 : osaAux a b i j = osaAux b a j i := ih i j (by omega)
        have e4 : osaAux a b (i - 1) (j - 1) = osaAux b a (j - 1) (i - 1) :=
          ih (i - 1) (j - 1) (by omega)
        have ecost : substitutionCost a b i j = substitutionCost b a j i := by
          unfold substitutionCost
          by_cases h : a.get? i = b.get? j
          · rw [if_pos h, if_pos h.symm]
          · rw [if_neg h, if_neg fun hh => h hh.symm]
        have hcond : (1 ≤ i ∧ 1 ≤ j ∧ a.get? i = b.get? (j - 1) ∧ a.get? (i - 1) = b.get? j)
            ↔ (1 ≤ j ∧ 1 ≤ i ∧ b.get? j = a.get? (i - 1) ∧ b.get? (j - 1) = a.get? i) := by
          constructor
          · rintro ⟨x1, x2, x3, x4⟩
            exact ⟨x2, x1, x4.symm, x3.symm⟩
          · rintro ⟨x1, x2, x3, x4⟩
            exact ⟨x2, x1, x4.symm, x3.symm⟩
        simp only [osaBase, e1, e2, e3, e4, ecost]
        by_cases hc : 1 ≤ j ∧ 1 ≤ i ∧ b.get? j = a.get? (i - 1) ∧ b.get? (j - 1) = a.get? i
        · rw [if_pos (hcond.mpr hc), if_pos hc]
          omega
        · rw [if_neg fun hx => hc (hcond.mp hx), if_neg hc]
          omega

theorem osa_comm (a b : List Char) : osa a b = osa b a :=
  osaAux_comm a b (a.length + b.length) a.length b.length le_rfl

/-- A cell only looks at the sequences below its indices. -/
theorem osaAux_congr : ∀ (n : Nat) (a b a2 b2 : List Char) (i j : Nat), i + j ≤ n →
    (∀ k, k < i → a.get? k = a2.get? k) →
    (∀ k, k < j → b.get? k = b2.get? k) →
    osaAux a b i j = osaAux a2 b2 i j := by
  intro n
  induction n with
  | zero =>
    intro a b a2 b2 i j hij _ _
    have hi : i = 0 := by omega
    have hj : j = 0 := by omega
    subst hi; subst hj
    rw [osaAux_zero_left, osaAux_zero_left]
  | succ n ih =>
    intro a b a2 b2 i j hij hA hB
    cases i with
    | zero => rw [osaAux_zero_left, osaAux_zero_left]
    | succ i =>
      cases j with
      | zero => rw [osaAux_zero_right, osaAux_zero_right]
      | succ j =>
        rw [osaAux_succ_succ, osaAux_succ_succ]
        have e1 := ih a b a2 b2 i (j + 1) (by omega)
          (fun k hk => hA k (by omega)) hB
        have e2 := ih a b a2 b2 (i + 1) j (by omega)
          hA (fun k hk => hB k (by omega))
        have e3 := ih a b a2 b2 i j (by omega)
          (fun k hk => hA k (by omega)) (fun k hk => hB k (by omega))
        have e4 := ih a b a2 b2 (i - 1) (j - 1) (by omega)
          (fun k hk => hA k (by omega)) (fun k hk => hB k (by omega))
        have hai : a.get? i = a2.get? i := hA i (by omega)
        have haim : a.get? (i - 1) = a2.get? (i - 1) := hA (i - 1) (by omega)
        have hbj : b.get? j = b2.get? j := hB j (by omega)
        have hbjm : b.get? (j - 1) = b2.get? (j - 1) := hB (j - 1) (by omega)
        have ecost : substitutionCost a b i j = substitutionCost a2 b2 i j := by
          unfold substitutionCost
          rw [hai, hbj]
        have hcond : (1 ≤ i ∧ 1 ≤ j ∧ a.get? i = b.get? (j - 1) ∧ a.get? (i - 1) = b.get? j)
            ↔ (1 ≤ i ∧ 1 ≤ j ∧ a2.get? i = b2.get? (j - 1) ∧ a2.get? (i - 1) = b2.get? j) := by
          rw [hai, haim, hbj, hbjm]
        simp only [osaBase, e1, e2, e3, e4, ecost]
        by_cases hc : 1 ≤ i ∧ 1 ≤ j ∧ a2.get? i = b2.get? (j - 1) ∧ a2.get? (i - 1) = b2.get? j
        · rw [if_pos (hcond.mpr hc), if_pos hc]
        · rw [if_neg fun hx => hc (hcond.mp hx), if_neg hc]

/-- Stripping a shared first character does not change the distance: the
matrix of `(c :: a, c :: b)` is the matrix of `(a, b)` shifted by one, and
the transposition candidates that reach across the stripped character are
never better than the three base candidates. -/
theorem osaAux_cons (c : Char) (a b : List Char) : ∀ n i j, i + j ≤ n →
    osaAux (c :: a) (c :: b) (i + 1) (j + 1) = osaAux a b i j := by
  intro n
  induction n with
  | zero =>
    intro i j hij
    have hi : i = 0 := by omega
    have hj : j = 0 := by omega
    subst hi; subst hj
    rw [osaAux_succ_succ, if_neg (by omega)]
    simp only [osaBase, osaAux_zero_left, osaAux_zero_right,
      substitutionCost_eq_zero (c :: a) (c :: b) 0 0
        (by rw [List.get?_cons_zero, List.get?_cons_zero]),
      osaAux_zero_left]
    omega
  | succ n ih =>
    intro i j hij
    cases i with
    | zero =>
      rw [osaAux_succ_succ, if_neg (by omega), osaAux_zero_left]
      cases j with
      | zero =>
        simp only [osaBase, osaAux_zero_left, osaAux_zero_right,
          substitutionCost_eq_zero (c :: a) (c :: b) 0 0
            (by rw [List.get?_cons_zero, List.get?_cons_zero])]
        omega
      | succ j =>
        have h1 : osaAux (c :: a) (c :: b) 1 (j + 1) = osaAux a b 0 j :=
          ih 0 j (by omega)
        have hcost := substitutionCost_le_one (c :: a) (c :: b) 0 (j + 1)
        simp only [osaBase, osaAux_zero_left, h1]
        omega
    | succ i =>
      cases j with
      | zero =>
        rw [osaAux_succ_succ, if_neg (by omega), osaAux_zero_right]
        have h1 : osaAux (c :: a) (c :: b) (i + 1) 1 = osaAux a b i 0 :=
          ih i 0 (by omega)
        have hcost := substitutionCost_le_one (c :: a) (c :: b) (i + 1) 0
        simp only [osaBase, osaAux_zero_right, h1, osaAux_zero_left]
        omega
      | succ j =>
        rw [osaAux_succ_succ (c :: a) (c :: b) (i + 1) (j + 1),
          osaAux_succ_succ a b i j]
        have e1 : osaAux (c :: a) (c :: b) (i + 1) (j + 2) = osaAux a b i (j + 1) :=
          ih i (j + 1) (by omega)
        have e2 : osaAux (c :: a) (c :: b) (i + 2) (j + 1) = osaAux a b (i + 1) j :=
          ih (i + 1) j (by omega)
        have e3 : osaAux (c :: a) (c :: b) (i + 1) (j + 1) = osaAux a b i j :=
          ih i j (by omega)
        have ecost : substitutionCost (c :: a) (c :: b) (i + 1) (j + 1)
            = substitutionCost a b i j := by
          unfold substitutionCost
          rw [List.get?_cons_succ, List.get?_cons_succ]
        have hbase : osaBase (c :: a) (c :: b) (i + 1) (j + 1) = osaBase a b i j := by
          simp only [osaBase, e1, e2, e3, ecost]
        simp only [Nat.add_sub_cancel]
        cases i with
        | zero =>
          -- the shifted matrix may allow a transposition across the
          -- stripped character; it never beats the substitution candidate
          rw [if_neg (show ¬ (1 ≤ 0 ∧ 1 ≤ j ∧ a.get? 0 = b.get? (j - 1)
              ∧ a.get? (0 - 1) = b.get? j) by omega)]
          by_cases hc : 1 ≤ 0 + 1 ∧ 1 ≤ j + 1 ∧ (c :: a).get? (0 + 1) = (c :: b).get? j
              ∧ (c :: a).get? 0 = (c :: b).get? (j + 1)
          · rw [if_pos hc, hbase, osaAux_zero_left]
            have hcost := substitutionCost_le_one a b 0 j
            simp only [osaBase, osaAux_zero_left]
            omega
          · rw [if_neg hc, hbase]
        | succ i =>
          cases j with
          | zero =>
            rw [if_neg (show ¬ (1 ≤ i + 1 ∧ 1 ≤ 0 ∧ a.get? (i + 1) = b.get? (0 - 1)
                ∧ a.get? (i + 1 - 1) = b.get? 0) by omega)]
            by_cases hc : 1 ≤ i + 1 + 1 ∧ 1 ≤ 0 + 1
                ∧ (c :: a).get? (i + 1 + 1) = (c :: b).get? 0
                ∧ (c :: a).get? (i + 1) = (c :: b).get? (0 + 1)
            · rw [if_pos hc, hbase, osaAux_zero_right]
              have hcost := substitutionCost_le_one a b (i + 1) 0
              simp only [osaBase, osaAux_zero_right, osaAux_zero_left]
              omega
            · rw [if_neg hc, hbase]
          | succ j =>
            have e4 : osaAux (c :: a) (c :: b) (i + 1) (j + 1) = osaAux a b i j :=
              ih i j (by omega)
            have hz : osaAux a b (i + 1 - 1) (j + 1 - 1) = osaAux a b i j := by
              simp only [Nat.add_sub_cancel]
            have hcond : (1 ≤ i + 1 + 1 ∧ 1 ≤ j + 1 + 1
                  ∧ (c :: a).get? (i + 1 + 1) = (c :: b).get? (j + 1)
                  ∧ (c :: a).get? (i + 1) = (c :: b).get? (j + 1 + 1))
                ↔ (1 ≤ i + 1 ∧ 1 ≤ j + 1 ∧ a.get? (i + 1) = b.get? (j + 1 - 1)
                  ∧ a.get? (i + 1 - 1) = b.get? (j + 1)) := by
              simp only [Nat.add_sub_cancel, List.get?_cons_succ]
              constructor
              · rintro ⟨-, -, h3, h4⟩
                exact ⟨by omega, by omega, h3, h4⟩
              · rintro ⟨-, -, h3, h4⟩
                exact ⟨by omega, by omega, h3, h4⟩
            by_cases hc : 1 ≤ i + 1 ∧ 1 ≤ j + 1 ∧ a.get? (i + 1) = b.get? (j + 1 - 1)
                ∧ a.get? (i + 1 - 1) = b.get? (j + 1)
            · rw [if_pos (hcond.mpr hc), if_pos hc, hbase, e4, hz]
            · rw [if_neg (fun hx => hc (hcond.mp hx)), if_neg hc, hbase]

theorem get?_append_left_of_lt {l1 l2 : List Char} {n : Nat} (h : n < l1.length) :
    (l1 ++ l2).get? n = l1.get? n := by
  rw [List.get?_eq_getElem?, List.get?_eq_getElem?, List.getElem?_append_left h]

theorem get?_concat_len (l : List Char) (c : Char) :
    (l ++ [c]).get? l.length = some c := by
  rw [List.get?_eq_getElem?, List.getElem?_concat_length]

/-- Stripping a shared last character does not change the distance: the
final cell of the extended matrix is forced by its zero-cost diagonal, and
every other candidate (including a transposition ending at the shared
character) is at least the inner distance. -/
theorem osa_append_same (a b : List Char) (c : Char) :
    osa (a ++ [c]) (b ++ [c]) = osa a b := by
  unfold osa
  have hla : (a ++ [c]).length = a.length + 1 := by simp
  have hlb : (b ++ [c]).length = b.length + 1 := by simp
  rw [hla, hlb, osaAux_succ_succ]
  have hstab : ∀ i j, i ≤ a.length → j ≤ b.length →
      osaAux (a ++ [c]) (b ++ [c]) i j = osaAux a b i j := by
    intro i j hi hj
    refine osaAux_congr (i + j) (a ++ [c]) (b ++ [c]) a b i j le_rfl ?_ ?_
    · intro k hk
      exact get?_append_left_of_lt (by omega)
    · intro k hk
      exact get?_append_left_of_lt (by omega)
  have hAc : (a ++ [c]).get? a.length = some c := get?_concat_len a c
  have hBc : (b ++ [c]).get? b.length = some c := get?_concat_len b c
  have hcost : substitutionCost (a ++ [c]) (b ++ [c]) a.length b.length = 0 :=
    substitutionCost_eq_zero _ _ _ _ (by rw [hAc, hBc])
  have hD : osaAux (a ++ [c]) (b ++ [c]) a.length b.length
      = osaAux a b a.length b.length := hstab _ _ le_rfl le_rfl
  have h1 : osaAux a b a.length b.length
      ≤ osaAux (a ++ [c]) (b ++ [c]) a.length (b.length + 1) + 1 := by
    have h := osaAux_ge_left (a ++ [c]) (b ++ [c]) a.length b.length
    omega
  have h2 : osaAux a b a.length b.length
      ≤ osaAux (a ++ [c]) (b ++ [c]) (a.length + 1) b.length + 1 := by
    have h := osaAux_ge_up (a ++ [c]) (b ++ [c]) b.length a.length
    omega
  by_cases hc : 1 ≤ a.length ∧ 1 ≤ b.length
      ∧ (a ++ [c]).get? a.length = (b ++ [c]).get? (b.length - 1)
      ∧ (a ++ [c]).get? (a.length - 1) = (b ++ [c]).get? b.length
  · rw [if_pos hc]
    obtain ⟨hA1, hB1, hc1, hc2⟩ := hc
    have hb1 : b.get? (b.length - 1) = some c := by
      have h' : (b ++ [c]).get? (b.length - 1) = b.get? (b.length - 1) :=
        get?_append_left_of_lt (by omega)
      rw [← h', ← hc1, hAc]
    have ha1 : a.get? (a.length - 1) = some c := by
      have h' : (a ++ [c]).get? (a.length - 1) = a.get? (a.length - 1) :=
        get?_append_left_of_lt (by omega)
      rw [← h', hc2, hBc]
    have htr : osaAux a b a.length b.length
        ≤ osaAux (a ++ [c]) (b ++ [c]) (a.length - 1) (b.length - 1) + 1 := by
      have hs : osaAux (a ++ [c]) (b ++ [c]) (a.length - 1) (b.length - 1)
          = osaAux a b (a.length - 1) (b.length - 1) :=
        hstab _ _ (by omega) (by omega)
      have hd := osaAux_le_diag a b (a.length - 1) (b.length - 1)
      have hc0 : substitutionCost a b (a.length - 1) (b.length - 1) = 0 :=
        substitutionCost_eq_zero _ _ _ _ (by rw [ha1, hb1])
      have hAe : a.length - 1 + 1 = a.length := by omega
      have hBe : b.length - 1 + 1 = b.length := by omega
      rw [hAe, hBe, hc0] at hd
      omega
    simp only [osaBase, hcost, hD]
    omega
  · rw [if_neg hc]
    simp only [osaBase, hcost, hD]
    omega

/-- Stripping the whole common leading run preserves the distance. -/
theorem stripCommonPre_osa : ∀ a b : List Char,
    osa (stripCommonPre a b).1 (stripCommonPre a b).2 = osa a b := by
  intro a
  induction a with
  | nil => intro b; rfl
  | cons x xs ih =>
    intro b
    cases b with
    | nil => rfl
    | cons y ys =>
      by_cases hxy : x = y
      · subst hxy
        rw [show stripCommonPre (x :: xs) (x :: ys) = stripCommonPre xs ys from by
          simp [stripCommonPre]]
        rw [ih ys]
        unfold osa
        simp only [List.length_cons]
        exact (osaAux_cons x xs ys (xs.length + ys.length) xs.length ys.length
          le_rfl).symm
      · rw [show stripCommonPre (x :: xs) (y :: ys) = (x :: xs, y :: ys) from by
          simp [stripCommonPre, hxy]]

theorem stripRev_osa : ∀ ra rb : List Char,
    osa (stripCommonPre ra rb).1.reverse (stripCommonPre ra rb).2.reverse
      = osa ra.reverse rb.reverse := by
  intro ra
  induction ra with
  | nil => intro rb; rfl
  | cons x xs ih =>
    intro rb
    cases rb with
    | nil => rfl
    | cons y ys =>
      by_cases hxy : x = y
      · subst hxy
        rw [show stripCommonPre (x :: xs) (x :: ys) = stripCommonPre xs ys from by
          simp [stripCommonPre]]
        rw [ih ys]
        simp only [List.reverse_cons]
        exact (osa_append_same xs.reverse ys.reverse x).symm
      · rw [show stripCommonPre (x :: xs) (y :: ys) = (x :: xs, y :: ys) from by
          simp [stripCommonPre, hxy]]

/-- Stripping the whole common trailing run preserves the distance. -/
theorem stripCommonSuf_osa (a b : List Char) :
    osa (stripCommonSuf a b).1 (stripCommonSuf a b).2 = osa a b := by
  unfold stripCommonSuf
  have h := stripRev_osa a.reverse b.reverse
  simpa [List.reverse_reverse] using h

/-- Stripping removes equally many characters from both lists. -/
theorem stripCommonPre_len : ∀ a b : List Char,
    (stripCommonPre a b).1.length + b.length
      = a.length + (stripCommonPre a b).2.length := by
  intro a
  induction a with
  | nil => intro b; rfl
  | cons x xs ih =>
    intro b
    cases b with
    | nil => rfl
    | cons y ys =>
      by_cases hxy : x = y
      · subst hxy
        rw [show stripCommonPre (x :: xs) (x :: ys) = stripCommonPre xs ys from by
          simp [stripCommonPre]]
        have h := ih ys
        simp only [List.length_cons]
        omega
      · rw [show stripCommonPre (x :: xs) (y :: ys) = (x :: xs, y :: ys) from by
          simp [stripCommonPre, hxy]]

theorem stripCommonSuf_len (a b : List Char) :
    (stripCommonSuf a b).1.length + b.length
      = a.length + (stripCommonSuf a b).2.length := by
  unfold stripCommonSuf
  have h := stripCommonPre_len a.reverse b.reverse
  simp only [List.length_reverse] at h ⊢
  omega

/-- The inner loop computes row `i` of the recurrence, given buffers that
hold rows `i - 1` and (when it will be read) `i - 2`. -/
theorem cellFun_eq_osa (a b : List Char) (pp p : Nat → Nat) (k : Nat)
    (hp : ∀ j, p j = osaAux a b k j)
    (hpp : 1 ≤ k → ∀ j, pp j = osaAux a b (k - 1) j) :
    ∀ j, cellFun a b pp p (k + 1) j = osaAux a b (k + 1) j := by
  intro j
  induction j with
  | zero => rw [osaAux_zero_right]; rfl
  | succ j ihj =>
    rw [osaAux_succ_succ]
    simp only [cellFun]
    rw [hp (j + 1), hp j, ihj]
    simp only [Nat.add_sub_cancel]
    have hk2 : k + 1 - 2 = k - 1 := by omega
    rw [hk2]
    by_cases hc : 1 ≤ k ∧ 1 ≤ j ∧ a.get? k = b.get? (j - 1) ∧ a.get? (k - 1) = b.get? j
    · rw [if_pos (show 1 < k + 1 ∧ 0 < j ∧ a.get? k = b.get? (j - 1)
          ∧ a.get? (k - 1) = b.get? j from ⟨by omega, by omega, hc.2.2.1, hc.2.2.2⟩),
        if_pos hc, hpp (by omega) (j - 1)]
      simp only [osaBase]
    · rw [if_neg (show ¬ (1 < k + 1 ∧ 0 < j ∧ a.get? k = b.get? (j - 1)
          ∧ a.get? (k - 1) = b.get? j) from fun hx =>
            hc ⟨by omega, by omega, hx.2.2.1, hx.2.2.2⟩),
        if_neg hc]
      simp only [osaBase]

/-- The rolling row loop computes the recurrence. -/
theorem rowFun_eq_osa (a b : List Char) : ∀ i j, rowFun a b i j = osaAux a b i j := by
  intro i
  induction i using Nat.strong_induction_on with
  | _ i ih =>
    match i with
    | 0 =>
      intro j
      rw [osaAux_zero_left]
      rfl
    | 1 =>
      intro j
      simp only [rowFun]
      exact cellFun_eq_osa a b (fun _ => usizeMAX) (fun j => j) 0
        (fun j => by rw [osaAux_zero_left])
        (fun h2 => absurd h2 (by omega)) j
    | (i + 2) =>
      intro j
      simp only [rowFun]
      refine cellFun_eq_osa a b (rowFun a b i) (rowFun a b (i + 1)) (i + 1)
        (fun j => ih (i + 1) (by omega) j)
        (fun _ j => ?_) j
      rw [ih i (by omega) j]
      simp only [Nat.add_sub_cancel]

theorem osa_lower_bound (la lb : List Char) : la.length - lb.length ≤ osa la lb :=
  (osaAux_lower la lb (la.length + lb.length) la.length lb.length le_rfl).1

/-- The tail of `edit_distance` after the swap (early length exit, the two
strips, and the rolling loop) computes the recurrence with the limit
check. -/
theorem ed_tail_eq (la lb : List Char) (hlen : lb.length ≤ la.length) (limit : Nat) :
    (if limit < la.length - lb.length then none
     else
       if (stripCommonSuf (stripCommonPre la lb).1 (stripCommonPre la lb).2).2.isEmpty = true
       then some (la.length - lb.length)
       else
         if rowFun (stripCommonSuf (stripCommonPre la lb).1 (stripCommonPre la lb).2).1
             (stripCommonSuf (stripCommonPre la lb).1 (stripCommonPre la lb).2).2
             (stripCommonSuf (stripCommonPre la lb).1 (stripCommonPre la lb).2).1.length
             (stripCommonSuf (stripCommonPre la lb).1 (stripCommonPre la lb).2).2.length
             ≤ limit
         then some (rowFun (stripCommonSuf (stripCommonPre la lb).1 (stripCommonPre la lb).2).1
             (stripCommonSuf (stripCommonPre la lb).1 (stripCommonPre la lb).2).2
             (stripCommonSuf (stripCommonPre la lb).1 (stripCommonPre la lb).2).1.length
             (stripCommonSuf (stripCommonPre la lb).1 (stripCommonPre la lb).2).2.length)
         else none)
    = if osa la lb ≤ limit then some (osa la lb) else none := by
  have hosa : osa (stripCommonSuf (stripCommonPre la lb).1 (stripCommonPre la lb).2).1
      (stripCommonSuf (stripCommonPre la lb).1 (stripCommonPre la lb).2).2 = osa la lb := by
    rw [stripCommonSuf_osa, stripCommonPre_osa]
  have hlen1 := stripCommonPre_len la lb
  have hlen2 := stripCommonSuf_len (stripCommonPre la lb).1 (stripCommonPre la lb).2
  have hlow := osa_lower_bound la lb
  by_cases h1 : limit < la.length - lb.length
  · rw [if_pos h1, if_neg (by omega)]
  · rw [if_neg h1]
    by_cases h2 : (stripCommonSuf (stripCommonPre la lb).1 (stripCommonPre la lb).2).2.isEmpty
        = true
    · rw [if_pos h2]
      have h20 : (stripCommonSuf (stripCommonPre la lb).1 (stripCommonPre la lb).2).2.length
          = 0 := by
        rw [List.isEmpty_iff] at h2
        rw [h2]
        rfl
      have hS1 : osa (stripCommonSuf (stripCommonPre la lb).1 (stripCommonPre la lb).2).1
          (stripCommonSuf (stripCommonPre la lb).1 (stripCommonPre la lb).2).2
          = (stripCommonSuf (stripCommonPre la lb).1 (stripCommonPre la lb).2).1.length := by
        unfold osa
        rw [h20, osaAux_zero_right]
      have heq : osa la lb = la.length - lb.length := by
        rw [← hosa, hS1]
        omega
      rw [heq, if_pos (by omega)]
    · rw [if_neg h2, rowFun_eq_osa]
      unfold osa at hosa
      rw [hosa]
      rfl

/-- `edit_distance` computes exactly the restricted recurrence under its
limit: `some` of the recurrence value when it is within the limit, absence
otherwise. -/
theorem edit_distance_eq_osa (a b : String) (limit : Nat) :
    edit_distance a b limit
      = if osa a.data b.data ≤ limit then some (osa a.data b.data) else none := by
  simp only [edit_distance]
  by_cases hsw : a.data.length < b.data.length
  · rw [if_pos hsw]
    dsimp only
    rw [ed_tail_eq b.data a.data (by omega) limit, osa_comm b.data a.data]
  · rw [if_neg hsw]
    dsimp only
    exact ed_tail_eq a.data b.data (by omega) limit

/-- Claim C7: the bounded distance is symmetric for every limit (in
particular for limits large enough that neither call returns absence). -/
theorem bounded_distance_symmetric (a b : String) (limit : Nat) :
    edit_distance a b limit = edit_distance b a limit := by
  rw [edit_distance_eq_osa, edit_distance_eq_osa, osa_comm]

/-- Claim C4, amended: `boundedDistance(a, b, limit)` returns `some` of the
true RESTRICTED edit distance — the optimal-string-alignment recurrence
`osa`, in which a transposition is only taken against the two-back diagonal
and an edited pair is never edited again — whenever `limit ≥` that distance,
and absence whenever `limit <` that distance.  (The unrestricted
minimum-cost-transformation reading of "true distance" is refuted by
`limit_monotonicity_claim_false`.) -/
theorem bounded_distance_limit_behaviour (a b : String) (limit : Nat) :
    edit_distance a b limit
      = if osa a.data b.data ≤ limit then some (osa a.data b.data) else none :=
  edit_distance_eq_osa a b limit

end RustcED
